import Mathlib

/-!
Verification of the monpy combinator library (src/monpy.py, src/example.py).

The `Many` variant stores its payload as a tuple; it is modelled here by a
Lean `List` of its elements.  The generic combinators (`curry`, `un_curry`,
`mmap`, `lift`, `do`, `loop`, `flatten`) are translated from the Python
source, specialised where needed to the container and element types used by
the properties under examination.
-/

namespace Monpy

/-- translation of `Many.wrap`: `Many(x)` with a single element. -/
def manyWrap {α : Type} (x : α) : List α := [x]

/-- translation of `Many.apply`:
`Many(*(f(x) for f in self.tup for x in other.tup))` — the generator loops
over the functions in the outer position and the values in the inner one. -/
def manyApply {α β : Type} (fs : List (α → β)) (xs : List α) : List β :=
  fs.flatMap (fun f => xs.map f)

/-- translation of `Many.bind`:
`Many(*(x for mx in map(f, self.tup) for x in mx.tup))` — the concatenation of
the sequences `f x` in order. -/
def manyBind {α β : Type} (m : List α) (f : α → List β) : List β :=
  (m.map f).flatten

/-- translation of `Many.fold`: starts from `initial` and runs
`y = fold(y, x)` over the tuple in order, i.e. a left fold. -/
def manyFold {α β : Type} (m : List α) (initial : β) (fold : β → α → β) : β :=
  m.foldl fold initial

/-- Modelled from the spec: the left fold written out as the claim states it,
consuming the elements in sequence order and returning `initial` on an empty
sequence.  Used as the comparison point for `Many.fold`. -/
def specLeftFold {α β : Type} : List α → β → (β → α → β) → β
  | [], a, _ => a
  | x :: m, a, f => specLeftFold m (f a x) f

/-- iterated arrow type: `Curried α β n` is an n-argument curried function over
`α` returning `β`, the type of the chains built by the currying engine. -/
def Curried (α β : Type) : Nat → Type
  | 0 => β
  | n + 1 => α → Curried α β n

/-- translation of `_curry_call(f, x, n, xs)`: when one argument remains the
source calls `f(x, *xs)`, i.e. the newest argument is passed FIRST, followed by
the previously accumulated ones in order; otherwise it returns a closure that
appends `x` to the accumulator.  The n-ary Python function `f` is modelled as a
function on the list of its positional arguments; the index `m` stands for the
source's `n - 1` remaining collections. -/
def curryCall {α β : Type} (f : List α → β) : (m : Nat) → α → List α → Curried α β m
  | 0, x, xs => f (x :: xs)
  | m + 1, x, xs => fun x_ => curryCall f m x_ (xs ++ [x])

/-- translation of `curry(n)`: `lambda f: lambda x: _curry_call(f, x, n)`, with
`n = m + 1` so that the result is an (m+1)-argument curried chain. -/
def pyCurry {α β : Type} (m : Nat) (f : List α → β) : Curried α β (m + 1) :=
  fun x => curryCall f m x []

/-- translation of `_un_curry_call(f, xs, n)`: after the arity check the source
sets `y = f` and then, for each `x` in `xs`, reassigns `y = f(x)` — applying the
ORIGINAL `f` each time rather than the previous `y`.  The accumulator starts as
`f` itself (not yet an application), modelled by `none`; each loop step replaces
it with `some (f x)`. -/
def unCurryCall {α γ : Type} (f : α → γ) (xs : List α) (n : Nat) :
    Except String (Option γ) :=
  if xs.length ≠ n then Except.error "arity mismatch"
  else Except.ok (xs.foldl (fun _ x => some (f x)) none)

/-- a concrete binary function on the positional-argument list, `f(x, y) = x - y`;
the catch-all branch is unreachable when exactly two arguments are supplied. -/
def subU (l : List Int) : Int :=
  match l with
  | [x, y] => x - y
  | _ => 0

/-- a concrete binary function on the positional-argument list, `f(x, y) = x + y`. -/
def addU (l : List Int) : Int :=
  match l with
  | [x, y] => x + y
  | _ => 0

/-- translation of `ApplicativeCls.lift` specialised to the `Many` container and
the flag list `(True, False)` used by `example.py`: the source sets
`y = cls.wrap(curry(2)(f))`, then folds over the flags — combining by `apply`
for the `True` flag and by mapping partial application for the `False` flag.
The two arity checks of the source (a positive number of flags, matching
argument count) are satisfied by this call shape. -/
def manyLiftTF (f : List Int → Int) (x1 : List Int) (x2 : Int) : List Int :=
  let y0 := manyWrap (pyCurry 1 f)
  let y1 := manyApply y0 x1
  y1.map (fun f_ => f_ x2)

/-- the state dictionary of a `Do` object: an insertion-ordered mapping from
field names to values, modelled as an association list.  The payload type is
specialised to the single value type occurring in each examined program. -/
abbrev PyDict (τ : Type) : Type := List (String × τ)

/-- translation of the dictionary merge `{**d, k: v}` used by the sequencer:
when `k` is already a key its entry is updated in place (keeping its original
position), otherwise the new pair is appended at the end. -/
def dictInsert {τ : Type} (d : PyDict τ) (k : String) (v : τ) : PyDict τ :=
  if d.any (fun p => p.1 == k) then
    d.map (fun p => if p.1 == k then (k, v) else p)
  else
    d ++ [(k, v)]

/-- translation of the attribute lookup `state[name]` on a `Do` object; a
missing name raises a KeyError in Python, modelled by `none`. -/
def dictGet {τ : Type} (d : PyDict τ) (k : String) : Option τ :=
  (d.find? (fun p => p.1 == k)).map Prod.snd

/-- lookup with a default, used to feed a field value to an integer-valued step
function; every access below is to a name already bound, so the default is
never produced on the executions examined. -/
def dictGetD {τ : Type} (d : PyDict τ) (k : String) (v0 : τ) : τ :=
  (dictGet d k).getD v0

/-- translation of `MonadCls.do` for the `Many` container: starting from the
wrapped state `init` (`cls.wrap(Do())` by default), each named step in
declaration order binds the current wrapped record to a continuation that runs
the step on the record and maps the resulting wrapped value into the record
extended by the step's name bound to the unwrapped value. -/
def manyDo {τ : Type} (init : List (PyDict τ))
    (steps : List (String × (PyDict τ → List τ))) : List (PyDict τ) :=
  steps.foldl
    (fun state step =>
      manyBind state (fun s => (step.2 s).map (fun x => dictInsert s step.1 x)))
    init

/-- translation of the inner `while_do` of `MonadCls.loop` for `Many`: if the
predicate holds on the record, one `do` pass is run from `cls.wrap(s)` and its
result is bound recursively, otherwise `cls.wrap(s)` is returned.  The Python
recursion need not terminate, so it is modelled with explicit fuel: `none`
means the fuel was exhausted before the recursion returned. -/
def manyWhileDo {τ : Type} (pred : PyDict τ → Bool)
    (steps : List (String × (PyDict τ → List τ))) :
    Nat → PyDict τ → Option (List (PyDict τ))
  | 0, _ => none
  | fuel + 1, s =>
    if pred s then
      ((manyDo [s] steps).mapM (manyWhileDo pred steps fuel)).map List.flatten
    else
      some [s]

/-- translation of `MonadCls.loop` for `Many`: `do.bind(while_do)` on the
initial wrapped state, with `Many.bind` being flatten-of-map. -/
def manyLoop {τ : Type} (pred : PyDict τ → Bool) (init : List (PyDict τ))
    (steps : List (String × (PyDict τ → List τ))) (fuel : Nat) :
    Option (List (PyDict τ)) :=
  (init.mapM (manyWhileDo pred steps fuel)).map List.flatten

/-- a dynamically typed `Many` element: either a plain integer or a nested
`Many` value (whose tuple is again a list of such elements).  `issubclass`
checks against the `Many` class correspond to the `many` constructor. -/
inductive MVal : Type
  | int : Int → MVal
  | many : List MVal → MVal

/-- translation of `issubclass(type(v), mon)` for `mon = Many`. -/
def MVal.isMany : MVal → Bool
  | .many _ => true
  | .int _ => false

/-- reads a value known to be a `Many` as the list of its elements; the `int`
branch is unreachable on the examined executions because the loop predicate
guards every use with `isMany`. -/
def MVal.asList : MVal → List MVal
  | .many l => l
  | .int n => [.int n]

/-- the `x` field of a flatten state record; `flatten` binds `x` before any
access, so the default is never produced on the examined executions. -/
def getX (s : PyDict MVal) : MVal :=
  dictGetD s "x" (MVal.int 0)

/-- translation of the free function `flatten(mon, expr)` for `mon = Many`:
`mon.loop(lambda s: issubclass(type(s.x), mon), do=mon.do(x=lambda s: expr),
x=lambda s: s.x).map(lambda s: s.x)` with the loop recursion run on the given
fuel. -/
def flattenMany (expr : List MVal) (fuel : Nat) : Option (List MVal) :=
  (manyLoop (fun s => (getX s).isMany)
      (manyDo [([] : PyDict MVal)] [("x", fun _ => expr)])
      [("x", fun s => (getX s).asList)] fuel).map
    (fun rs => rs.map getX)

/-- the three-argument function of `example.py`: `g(x, y, z) = x*z + y*z`. -/
def gEx (x y z : Int) : Int := x * z + y * z

/-- the step list of the `Many.do` block in `example.py`. -/
def doStepsEx : List (String × (PyDict Int → List Int)) :=
  [("x", fun _ => [0, 2]),
   ("y", fun _ => [0, 1]),
   ("z", fun s => manyWrap (gEx (dictGetD s "x" 0) (dictGetD s "y" 0) (-1)))]

/-- Modelled from the spec: the concatenation, in order, of the sequences
`f x` for each `x` of the original sequence.  Used as the comparison point for
`Many.bind`. -/
def specBindConcat {α β : Type} : List α → (α → List β) → List β
  | [], _ => []
  | x :: m, f => f x ++ specBindConcat m f

/-- the shape of a `map` method: any Mappable container supplies one. -/
def MapOp (F : Type → Type) : Type 1 :=
  ∀ {a b : Type}, (a → b) → F a → F b

/-- the `map` method of `Many`. -/
def listMapOp : MapOp List := fun f l => l.map f

/-- a value nested `n` levels deep inside the container `F`. -/
def Nest (F : Type → Type) (α : Type) : Nat → Type
  | 0 => α
  | n + 1 => F (Nest F α n)

/-- maps a function through `n` container layers by iterated `map`. -/
def nmap {F : Type → Type} (m : MapOp F) {a b : Type} :
    (n : Nat) → (a → b) → Nest F a n → Nest F b n
  | 0, f, x => f x
  | n + 1, f, x => m (nmap m n f) x

/-- the result shape of a multi-map over the depth list `Ls`: the layers of the
first argument are outermost, those of the second argument next, and so on. -/
def NestDs (F : Type → Type) (β : Type) : List Nat → Type
  | [] => β
  | L :: Ls => Nest F (NestDs F β Ls) L

/-- the argument vector of a multi-map call: one value per declared depth,
each nested to its own depth. -/
inductive ArgsV (F : Type → Type) (α : Type) : List Nat → Type
  | nil : ArgsV F α []
  | cons {L : Nat} {Ls : List Nat} :
      Nest F α L → ArgsV F α Ls → ArgsV F α (L :: Ls)

/-- translation of the first wrapping loop of `FunctorCls.mmap.inner` together
with the base case: the base update is `y_(x)`, and each of the
`functor_levels[i]` wrapping steps turns an update `u` into
`lambda y_, x: x.map(lambda x_: u(y_, x_))` — descending the argument's own
nesting and applying the still-curried function at the innermost level. -/
def updateX {F : Type → Type} (m : MapOp F) {α γ : Type} :
    (L : Nat) → (α → γ) → Nest F α L → Nest F γ L
  | 0, y, x => y x
  | L + 1, y, x => m (fun x_ => updateX m L y x_) x

/-- translation of the per-argument iteration of `FunctorCls.mmap.inner`: the
loop state `y` starts as the curried function and is threaded through each
argument.  The accumulated outer depth (`layer` in the source, increased by
`functor_levels[i]` after each argument) is carried as the container
composition `W` together with its map `wmap`: the source's second wrapping
loop, `lambda y_, x: y_.map(lambda y__: u(y__, x))` iterated `layer` times,
is exactly a `wmap` descent through all accumulated layers. -/
def mmapGo {F : Type → Type} (m : MapOp F) {α β : Type} :
    (W : Type → Type) → MapOp W → (rem : List Nat) → ArgsV F α rem →
    W (Curried α β rem.length) → W (NestDs F β rem)
  | _, _, [], .nil, y => y
  | W, wmap, L :: Ls, .cons x xs, y =>
      mmapGo m (fun t => W (Nest F t L)) (fun f y_ => wmap (nmap m L f) y_)
        Ls xs (wmap (fun g => updateX m L g x) y)

/-- translation of `FunctorCls.mmap` applied to a function and its arguments:
the depth list is non-empty (the source raises otherwise), the argument count
matches the depth count by construction, and the initial loop state is
`curry(flevs_len)(f)` built by the source's currying engine. -/
def mmapImpl {F : Type → Type} (m : MapOp F) {α β : Type} (L0 : Nat)
    (Ls : List Nat) (args : ArgsV F α (L0 :: Ls)) (f : List α → β) :
    NestDs F β (L0 :: Ls) :=
  mmapGo m (fun t => t) (fun h y_ => h y_) (L0 :: Ls) args (pyCurry Ls.length f)

/-- Modelled from the spec: `f` broadcast through all nesting, the container
layers contributed by the first argument outermost, those of the next argument
inside them, and so on; a depth of 0 applies the curried function directly
with no `map` call.  The curried function applied at the innermost level is a
parameter, so that the intended left-to-right application order and the order
actually produced by the source's currying engine can both be examined. -/
def broadcast {F : Type → Type} (m : MapOp F) {α β : Type} :
    (Ls : List Nat) → ArgsV F α Ls → Curried α β Ls.length → NestDs F β Ls
  | [], .nil, g => g
  | L :: Ls, .cons x xs, g =>
      nmap m L (fun a => broadcast m Ls xs (g a)) x

/-- Modelled from the spec: the straight curried form of a binary function,
applying it to its arguments in the order received. -/
def curried2 {α β : Type} (f : List α → β) : Curried α β 2 :=
  fun a b => f [a, b]

/-- translation of `FunctorCls.mmap` specialised to one declared depth given as
a raw integer: the wrapping loop of the source iterates once per element of
`[None] * L`, a list of length `L.toNat` (empty when `L` is negative).  The
source validates only that the number of depths is positive and that the
argument count matches — both satisfied here by construction — and never
inspects the depth values themselves, so this call shape has no error path
and the result is always `ok`. -/
def mmap1IntE {F : Type → Type} (m : MapOp F) {α β : Type} (L : Int)
    (f : α → β) (x : Nest F α L.toNat) : Except String (Nest F β L.toNat) :=
  Except.ok (updateX m L.toNat f x)

/-- C10: for every `Many(x_1,...,x_n)`, initial value `a` and binary function
`fn`, `Many.fold(a, fn)` returns the left fold `fn(...fn(fn(a, x_1), x_2)...,
x_n)`, consuming elements in sequence order; on an empty `Many` it returns the
initial value unchanged.  The concrete instance uses a non-commutative
function to pin the association and consumption order. -/
theorem many_fold_left_fold :
    (∀ (α β : Type) (m : List α) (a : β) (fold : β → α → β),
        manyFold m a fold = specLeftFold m a fold) ∧
    (∀ (β : Type) (a : β) (fold : β → Int → β), manyFold [] a fold = a) ∧
    manyFold [1, 2, 3] (0 : Int) (fun y x => y - x) = -6 := by
  refine ⟨?_, ?_, by decide⟩
  · intro α β m a fold
    induction m generalizing a with
    | nil => rfl
    | cons x m ih => simpa [manyFold, specLeftFold] using ih (fold a x)
  · intro β a fold
    rfl

/-- C4: for every `Many` and function from elements to `Many`, `bind` is the
concatenation, in order, of the sequences produced for each element; in
particular `Many(1,2).bind(x => Many(x, x*10)) == Many(1,10,2,20)`. -/
theorem many_bind_flat_map :
    (∀ (α β : Type) (m : List α) (f : α → List β),
        manyBind m f = specBindConcat m f) ∧
    manyBind [1, 2] (fun x : Int => [x, x * 10]) = [1, 10, 2, 20] := by
  refine ⟨?_, by decide⟩
  intro α β m f
  induction m with
  | nil => rfl
  | cons x m ih => simp [manyBind, specBindConcat] at ih ⊢; exact ih

/-- C5: with `f(x, y) = x + y`, the lifted function `Many.lift(true,false)(f)`
applied to `(Many(0,1), 2)` returns `Many(2,3)`: the curried function is
wrapped, combined with the wrapped first argument by `apply`, and partially
applied to the raw second argument by `map`. -/
theorem many_lift_example : manyLiftTF addU [0, 1] 2 = [2, 3] := by decide

/-- C6: the do block of `example.py` — x from `Many(0,2)`, y from `Many(0,1)`,
z from `wrap(g(x,y,-1))` with `g(x,y,z) = x*z + y*z` — projected on the z
field equals `Many(0,-1,-2,-3)`; moreover every resulting record holds
exactly the fields x, y, z, added one per step in declaration order. -/
theorem many_do_example :
    (manyDo [([] : PyDict Int)] doStepsEx).map (fun s => dictGet s "z")
        = [some 0, some (-1), some (-2), some (-3)] ∧
    (manyDo [([] : PyDict Int)] doStepsEx).map (fun s => s.map Prod.fst)
        = [["x", "y", "z"], ["x", "y", "z"], ["x", "y", "z"], ["x", "y", "z"]] := by
  exact ⟨rfl, rfl⟩

/-- C2: the code evaluated at the failing input `n = 2`, `f(x, y) = x - y`,
arguments `(5, 3)`: the loop of `_un_curry_call` reapplies the ORIGINAL
curried chain to each argument instead of threading the previous result, so
the call returns the one-step partial application left by the LAST argument —
the function sending y to `y - 3` (the source currying engine also places the
newest argument first) — whereas the round-trip contract demands the value
`f(5, 3) = 2`. -/
theorem un_curry_round_trip_fails :
    unCurryCall (pyCurry 1 subU) [5, 3] 2 = Except.ok (some (fun y => y - 3)) ∧
    subU [5, 3] = 2 := by
  exact ⟨rfl, rfl⟩

/-- C7: `flatten(Many, Many(0, Many(1,2), Many(3,4)))` equals
`Many(0,1,2,3,4)`: the loop joins nested `Many` layers, keeping non-matching
elements, until no `x` field is a `Many`; fuel 4 is enough for this value. -/
theorem flatten_example :
    flattenMany [MVal.int 0, MVal.many [MVal.int 1, MVal.int 2],
        MVal.many [MVal.int 3, MVal.int 4]] 4
      = some [MVal.int 0, MVal.int 1, MVal.int 2, MVal.int 3, MVal.int 4] := by
  rfl

/-- length of a `Many.apply` result: one output per function-value pair. -/
theorem manyApply_length {α β : Type} (fs : List (α → β)) (xs : List α) :
    (manyApply fs xs).length = fs.length * xs.length := by
  induction fs with
  | nil => simp [manyApply]
  | cons f fs ih =>
      simp only [manyApply, List.flatMap_cons, List.length_append,
        List.length_map, List.length_cons] at ih ⊢
      rw [ih, Nat.succ_mul, Nat.add_comm]

/-- example function list for the `Many.apply` witness. -/
def fsEx : List (Int → Int) := [fun n => n + 1, fun n => n * 2]

/-- example value list for the `Many.apply` witness. -/
def xsEx : List Int := [10, 20]

/-- C3: `fs.apply(xs)` is the cartesian product with the function sequence
varying slowest and the value sequence fastest: the result has one entry per
pair, and the entry at position `i * |xs| + j` is `fs[i](xs[j])`. -/
theorem many_apply_cartesian {α β : Type} (fs : List (α → β)) (xs : List α)
    (i j : Nat) (hi : i < fs.length) (hj : j < xs.length) :
    (manyApply fs xs).length = fs.length * xs.length ∧
    (manyApply fs xs)[i * xs.length + j]? = some (fs[i] xs[j]) := by
  refine ⟨manyApply_length fs xs, ?_⟩
  induction fs generalizing i with
  | nil => exact absurd hi (Nat.not_lt_zero i)
  | cons f fs ih =>
      match i, hi with
      | 0, hi =>
          have hj_map : j < (xs.map f).length := by
            simpa using hj
          simp only [manyApply, List.flatMap_cons, Nat.zero_mul, Nat.zero_add]
          rw [List.getElem?_append, if_pos hj_map, List.getElem?_map,
            List.getElem?_eq_getElem hj]
          rfl
      | i + 1, hi =>
          have hlen : ¬((i + 1) * xs.length + j < (xs.map f).length) := by
            simp only [List.length_map, Nat.succ_mul]
            omega
          simp only [manyApply, List.flatMap_cons]
          rw [List.getElem?_append, if_neg hlen]
          have hidx : (i + 1) * xs.length + j - (xs.map f).length
              = i * xs.length + j := by
            simp only [List.length_map, Nat.succ_mul]
            omega
          rw [hidx]
          have hi_tail : i < fs.length := by
            simpa using Nat.lt_of_succ_lt_succ hi
          simpa [manyApply] using ih i hi_tail

/-- C3 witness: the claim instantiated at two concrete functions and two
concrete values; the entry at position `1 * 2 + 0` is the second function
applied to the first value. -/
theorem many_apply_cartesian_witness :
    (1 < fsEx.length ∧ 0 < xsEx.length) ∧
    (manyApply fsEx xsEx).length = fsEx.length * xsEx.length ∧
    (manyApply fsEx xsEx)[1 * xsEx.length + 0]? = some 20 := by
  refine ⟨⟨by decide, by decide⟩, ?_⟩
  exact many_apply_cartesian fsEx xsEx 1 0 (by decide) (by decide)

/-- replacing the entries of a key makes a search for that key find the new
pair, provided the key occurs. -/
theorem find?_map_replace_self {τ : Type} (k : String) (v : τ) :
    ∀ d : PyDict τ, d.any (fun p => p.1 == k) = true →
      (d.map (fun p => if p.1 == k then (k, v) else p)).find?
          (fun p => p.1 == k)
        = some (k, v) := by
  intro d
  induction d with
  | nil => intro h; simp at h
  | cons p d ih =>
      intro h
      by_cases hp : (p.1 == k) = true
      · rw [List.map_cons, if_pos hp]
        exact List.find?_cons_of_pos _ (by simp)
      · rw [List.map_cons, if_neg hp]
        rw [List.find?_cons_of_neg _ (by exact hp)]
        apply ih
        simpa [List.any_cons, hp] using h

/-- updating an existing key finds the new value. -/
theorem dictGet_dictInsert_self {τ : Type} (d : PyDict τ) (k : String) (v : τ) :
    dictGet (dictInsert d k v) k = some v := by
  unfold dictInsert
  by_cases hc : d.any (fun p => p.1 == k) = true
  · rw [if_pos hc]
    simp only [dictGet]
    rw [find?_map_replace_self k v d hc]
    rfl
  · rw [if_neg hc]
    have hnone : d.find? (fun p => p.1 == k) = none := by
      rw [List.find?_eq_none]
      intro p hp hpk
      exact hc (List.any_eq_true.mpr ⟨p, hp, hpk⟩)
    simp only [dictGet, List.find?_append, hnone, Option.none_or]
    rw [List.find?_cons_of_pos _ (by simp)]
    rfl

/-- searching for one key is unaffected by replacing the entries of a
different key. -/
theorem find?_map_replace_ne {τ : Type} (k k_ : String) (v : τ)
    (hk : k_ ≠ k) :
    ∀ d : PyDict τ,
      (d.map (fun p => if p.1 == k then (k, v) else p)).find?
          (fun p => p.1 == k_)
        = d.find? (fun p => p.1 == k_) := by
  have hbeq : (k == k_) = false := by
    simpa [beq_iff_eq] using fun h => hk h.symm
  intro d
  induction d with
  | nil => rfl
  | cons p d ih =>
      by_cases hp : (p.1 == k) = true
      · have hp1 : p.1 = k := by simpa [beq_iff_eq] using hp
        rw [List.map_cons, if_pos hp,
          List.find?_cons_of_neg _ (by simp [hbeq]),
          List.find?_cons_of_neg _ (by simp [hp1, hbeq])]
        exact ih
      · rw [List.map_cons, if_neg hp]
        by_cases hq : (p.1 == k_) = true
        · rw [List.find?_cons_of_pos _ (by exact hq),
            List.find?_cons_of_pos _ (by exact hq)]
        · rw [List.find?_cons_of_neg _ (by exact hq),
            List.find?_cons_of_neg _ (by exact hq)]
          exact ih

/-- updating one key leaves lookups of every other key unchanged. -/
theorem dictGet_dictInsert_ne {τ : Type} (d : PyDict τ) (k : String) (v : τ)
    (k_ : String) (hk : k_ ≠ k) :
    dictGet (dictInsert d k v) k_ = dictGet d k_ := by
  have hbeq : (k == k_) = false := by
    simpa [beq_iff_eq] using fun h => hk h.symm
  unfold dictInsert
  by_cases hc : d.any (fun p => p.1 == k) = true
  · rw [if_pos hc]
    simp only [dictGet]
    rw [find?_map_replace_ne k k_ v hk d]
  · rw [if_neg hc]
    simp only [dictGet, List.find?_append]
    rw [List.find?_cons_of_neg _ (by simp [hbeq]), List.find?_nil,
      Option.or_none]

/-- C9: a `do` step whose name is already a field of the current record does
not raise: the step binds normally (Python dict merge never fails), the
resulting record holds the new step value under that name, and every other
field is unchanged. -/
theorem many_do_duplicate_field {τ : Type} (s : PyDict τ) (k : String) (v : τ)
    (_h : s.any (fun p => p.1 == k) = true) :
    manyDo [s] [(k, fun _ => [v])] = [dictInsert s k v] ∧
    dictGet (dictInsert s k v) k = some v ∧
    ∀ k_ : String, k_ ≠ k → dictGet (dictInsert s k v) k_ = dictGet s k_ := by
  refine ⟨?_, dictGet_dictInsert_self s k v,
    fun k_ hk => dictGet_dictInsert_ne s k v k_ hk⟩
  simp [manyDo, manyBind]

/-- C9 witness: the claim instantiated at a record with fields x and y, a
duplicate step named x, and the unrelated field y checked unchanged. -/
theorem many_do_duplicate_field_witness :
    ([("x", (1 : Int)), ("y", 2)] : PyDict Int).any (fun p => p.1 == "x")
        = true ∧
    manyDo [[("x", (1 : Int)), ("y", 2)]] [("x", fun _ => [5])]
        = [[("x", 5), ("y", 2)]] ∧
    dictGet (dictInsert [("x", (1 : Int)), ("y", 2)] "x" 5) "x" = some 5 ∧
    dictGet (dictInsert [("x", (1 : Int)), ("y", 2)] "x" 5) "y"
        = dictGet [("x", (1 : Int)), ("y", 2)] "y" := by
  have h := many_do_duplicate_field [("x", (1 : Int)), ("y", 2)] "x" 5
    (by decide)
  exact ⟨by decide, h.1, h.2.1, h.2.2 "y" (by decide)⟩

/-- iterated `map` of the identity is the identity, for a lawful `map`. -/
theorem nmap_id {F : Type → Type} (m : MapOp F)
    (hid : ∀ {a : Type} (x : F a), m (fun z => z) x = x) {a : Type} :
    ∀ (n : Nat) (x : Nest F a n), nmap m n (fun z => z) x = x
  | 0, _ => rfl
  | n + 1, x => by
      show m (nmap m n fun z => z) x = x
      rw [show (nmap m n fun z : a => z) = fun z => z from
        funext (nmap_id m hid n)]
      exact hid x

/-- iterated `map` composes, for a lawful `map`. -/
theorem nmap_comp {F : Type → Type} (m : MapOp F)
    (hcomp : ∀ {a b c : Type} (g : b → c) (f : a → b) (x : F a),
        m g (m f x) = m (fun z => g (f z)) x)
    {a b c : Type} (g : b → c) (f : a → b) :
    ∀ (n : Nat) (x : Nest F a n),
      nmap m n g (nmap m n f x) = nmap m n (fun z => g (f z)) x
  | 0, _ => rfl
  | n + 1, x => by
      show m (nmap m n g) (m (nmap m n f) x) = m (nmap m n fun z => g (f z)) x
      rw [hcomp]
      exact congrFun (congrArg m (funext (nmap_comp m hcomp g f n))) x

/-- descending through an argument's layers after an update is the same as a
single descent applying the composed function: the per-argument application
path built by the source commutes with later `map` descents. -/
theorem nmap_updateX {F : Type → Type} (m : MapOp F)
    (hcomp : ∀ {a b c : Type} (g : b → c) (f : a → b) (x : F a),
        m g (m f x) = m (fun z => g (f z)) x)
    {α γ δ : Type} (h : γ → δ) (g : α → γ) :
    ∀ (L : Nat) (x : Nest F α L),
      nmap m L h (updateX m L g x) = nmap m L (fun a => h (g a)) x
  | 0, _ => rfl
  | L + 1, x => by
      show m (nmap m L h) (m (fun x_ => updateX m L g x_) x)
          = m (nmap m L fun a => h (g a)) x
      rw [hcomp]
      exact congrFun
        (congrArg m (funext (fun x_ => nmap_updateX m hcomp h g L x_))) x

/-- the iterative construction of `FunctorCls.mmap.inner` equals the direct
recursive broadcast: the accumulated outer layers `W` commute with every later
per-argument update, given the functor identity and composition laws. -/
theorem mmapGo_eq_broadcast {F : Type → Type} (m : MapOp F)
    (hid : ∀ {a : Type} (x : F a), m (fun z => z) x = x)
    (hcomp : ∀ {a b c : Type} (g : b → c) (f : a → b) (x : F a),
        m g (m f x) = m (fun z => g (f z)) x)
    {α β : Type} :
    ∀ (rem : List Nat) (xs : ArgsV F α rem) (W : Type → Type) (wmap : MapOp W)
      (wid : ∀ {a : Type} (y : W a), wmap (fun z => z) y = y)
      (wcomp : ∀ {a b c : Type} (g : b → c) (f : a → b) (y : W a),
          wmap g (wmap f y) = wmap (fun z => g (f z)) y)
      (y : W (Curried α β rem.length)),
      mmapGo m W wmap rem xs y = wmap (fun g => broadcast m rem xs g) y
  | [], .nil, _, _, wid, _, y => (wid y).symm
  | L :: Ls, .cons x xs, W, wmap, wid, wcomp, y => by
      show mmapGo m (fun t => W (Nest F t L)) (fun f y_ => wmap (nmap m L f) y_)
          Ls xs (wmap (fun g => updateX m L g x) y)
        = wmap (fun g => broadcast m (L :: Ls) (.cons x xs) g) y
      rw [mmapGo_eq_broadcast m hid hcomp Ls xs
        (fun t => W (Nest F t L)) (fun f y_ => wmap (nmap m L f) y_)
        (fun {a} (y_ : W (Nest F a L)) => by
          show wmap (nmap m L fun z => z) y_ = y_
          rw [show (nmap m L fun z : a => z) = fun z => z from
            funext (nmap_id m hid L)]
          exact wid y_)
        (fun {a b c} (g_ : b → c) (f_ : a → b) (y_ : W (Nest F a L)) => by
          show wmap (nmap m L g_) (wmap (nmap m L f_) y_)
              = wmap (nmap m L fun z => g_ (f_ z)) y_
          rw [wcomp]
          exact congrFun (congrArg wmap
            (funext (nmap_comp m hcomp g_ f_ L))) y_)]
      rw [wcomp]
      exact congrFun (congrArg wmap (funext (fun g =>
        nmap_updateX m hcomp (fun g_ => broadcast m Ls xs g_) g L x))) y

/-- C1 (amended): for every container with a lawful `map`, every depth list
`L_0 :: Ls` (k = |Ls| + 1 >= 1), every k-ary function `f` and every argument
vector nested to the declared depths, `mmap` equals the broadcast of the
curried chain built by the source currying engine through all nesting — the
container layers of the first argument outermost, those of each later
argument inside them, and a depth of 0 applied directly with no `map` call.
The innermost applications are those of the source curried chain, which
passes the LAST argument first and then the earlier ones in order (see the
counterexample), rather than the declared left-to-right order. -/
theorem mmap_broadcast_amended {F : Type → Type} (m : MapOp F)
    (hid : ∀ {a : Type} (x : F a), m (fun z => z) x = x)
    (hcomp : ∀ {a b c : Type} (g : b → c) (f : a → b) (x : F a),
        m g (m f x) = m (fun z => g (f z)) x)
    {α β : Type} (L0 : Nat) (Ls : List Nat) (args : ArgsV F α (L0 :: Ls))
    (f : List α → β) :
    mmapImpl m L0 Ls args f
      = broadcast m (L0 :: Ls) args (pyCurry Ls.length f) :=
  mmapGo_eq_broadcast m hid hcomp (L0 :: Ls) args (fun t => t)
    (fun h y_ => h y_) (fun _ => rfl) (fun _ _ _ => rfl)
    (pyCurry Ls.length f)

/-- the argument vector `(Many(10, 20), 1)` for depths `(1, 0)`. -/
def cexArgs : ArgsV List Int [1, 0] :=
  .cons (show Nest List Int 1 from ([10, 20] : List Int))
    (.cons (show Nest List Int 0 from (1 : Int)) .nil)

/-- C1 counterexample: with depths `(1, 0)`, `f(x, y) = x - y`, and arguments
`(Many(10, 20), 1)`, the code produces `Many(1-10, 1-20) = Many(-9, -19)` —
the raw second argument is passed to `f` FIRST — while the claimed broadcast
of `f` in left-to-right order is `Many(10-1, 20-1) = Many(9, 19)`. -/
theorem mmap_order_cex :
    mmapImpl listMapOp 1 [0] cexArgs subU
      = (show Nest List Int 1 from ([-9, -19] : List Int)) ∧
    broadcast listMapOp [1, 0] cexArgs (curried2 subU)
      = (show Nest List Int 1 from ([9, 19] : List Int)) ∧
    ([(-9 : Int), -19] ≠ [9, 19]) := by
  exact ⟨rfl, rfl, by decide⟩

/-- C1 witness: the amended claim applied to the `Many` container (a lawful
functor) at depths `(1, 0)` with concrete arguments. -/
theorem mmap_broadcast_amended_witness :
    mmapImpl listMapOp 1 [0] cexArgs subU
      = broadcast listMapOp [1, 0] cexArgs (pyCurry 1 subU) := by
  exact mmap_broadcast_amended listMapOp
    (by intro a x; simp [listMapOp])
    (by intro a b c g f x; simp [listMapOp, List.map_map, Function.comp])
    1 [0] cexArgs subU

/-- C8 counterexample: calling the function produced by `mmap(-1)` does not
raise: the depth is never validated, the wrapping loop runs zero times (an
empty `[None] * -1`), and the call returns the plain value `f(5) = 6` — there
is no InvalidDepth error, synchronously or otherwise. -/
theorem mmap_negative_depth_cex :
    mmap1IntE listMapOp (-1) (fun n : Int => n + 1)
        (show Nest List Int ((-1 : Int)).toNat from (5 : Int))
      = Except.ok (show Nest List Int ((-1 : Int)).toNat from (6 : Int)) := by
  exact rfl

/-- C8 (amended): `mmap` performs no validation of depth values; a negative
depth contributes zero container layers — the wrapping loop iterates over
`[None] * L`, which is empty for negative `L` — so for depth `-1` the produced
function applies `f` directly to the raw argument, exactly as for depth 0,
and returns normally instead of raising InvalidDepth.  (A non-integer depth
is outside this integer model; in Python it raises a TypeError from the list
repetition only when the produced function is applied, not at the `mmap`
call.) -/
theorem mmap_negative_depth_amended {F : Type → Type} (m : MapOp F)
    {α β : Type} (f : α → β) (x : α) :
    mmap1IntE m (-1) f (show Nest F α ((-1 : Int)).toNat from x)
      = Except.ok (show Nest F β ((-1 : Int)).toNat from f x) := rfl

end Monpy
